import Mathlib

/-!
Verification of the target-eye record model (fa_target_eye/target_config.py,
rest_api.py, target_config_schema.py).

A TargetConfig value holds an application, an environment, a list of target
strings and a dict of labels.  Python dicts are embedded as association lists
in insertion order with pairwise-distinct keys; machine strings are Lean
strings (the source only distinguishes ASCII classes, which Char.isAlpha,
Char.isDigit and Char.isAlphanum model).  Methods that can raise ValueError
are embedded as functions into Except String.
-/

set_option linter.unusedVariables false

namespace TargetEye

/-- Dict models a Python dict with string keys and values: an association list
in insertion order.  A real Python dict always has pairwise-distinct keys;
theorems that depend on it take keysNodup as a hypothesis. -/
abbrev Dict := List (String × String)

/-- Value stored at the given key: the first matching entry of the list. -/
def lookup : Dict → String → Option String
  | [], _ => none
  | (k, v) :: rest, key => if k = key then some v else lookup rest key

/-- Python membership test, the expression key in dict. -/
def hasKey (d : Dict) (k : String) : Bool := (lookup d k).isSome

/-- Python dict assignment d[key] = val: replaces the stored value in place
when the key is present and appends a new entry at the end otherwise. -/
def setKey (d : Dict) (key val : String) : Dict :=
  if hasKey d key then d.map (fun p => if p.1 = key then (key, val) else p)
  else d ++ [(key, val)]

/-- Python dict.update(u): performs every assignment of u in order. -/
def updateDict (d : Dict) (u : Dict) : Dict :=
  u.foldl (fun acc p => setKey acc p.1 p.2) d

/-- Python del d[key]. -/
def eraseKey (d : Dict) (key : String) : Dict :=
  d.filter (fun p => p.1 != key)

/-- Final loop of delete_from_labels: deletes every key of victims from d. -/
def eraseAll (d : Dict) (victims : Dict) : Dict :=
  victims.foldl (fun acc p => eraseKey acc p.1) d

/-- Keys of the dict are pairwise distinct (the invariant of Python dicts). -/
def keysNodup (d : Dict) : Prop := (d.map Prod.fst).Nodup

instance keysNodupDec (d : Dict) : Decidable (keysNodup d) :=
  inferInstanceAs (Decidable ((d.map Prod.fst).Nodup))

/-- Python test not s.strip(): the string is empty or whitespace only
(modelled over ASCII whitespace). -/
def isBlank (s : String) : Bool := s.data.all Char.isWhitespace

/-- Split of a character list at every occurrence of the separator, the
semantics of Python str.split(sep): the empty string yields one empty part. -/
def splitOnChar (sep : Char) : List Char → List (List Char)
  | [] => [[]]
  | c :: rest =>
    let r := splitOnChar sep rest
    if c = sep then [] :: r
    else (c :: r.headD []) :: r.tail

/-- Python str.isdigit over a character list (ASCII digits), which is also
what the anchored regex [0-9]+$ of valid_hostname accepts. -/
def allDigitsL (cs : List Char) : Bool := !cs.isEmpty && cs.all Char.isDigit

/-- Python str.isdigit. -/
def allDigits (s : String) : Bool := allDigitsL s.data

/-- Python int() applied to an all-digit character list. -/
def digitsToNatL (cs : List Char) : Nat := cs.foldl (fun n c => n * 10 + (c.toNat - 48)) 0

/-- Python int() applied to an all-digit string. -/
def digitsToNat (s : String) : Nat := digitsToNatL s.data

/-- Characters admitted inside a hostname label by HOSTNAME_RE, the class
[a-z0-9-] compiled with IGNORECASE. -/
def hostnameLabelChar (c : Char) : Bool := c.isAlpha || c.isDigit || c == '-'

/-- Match of HOSTNAME_RE from target_config.py, the anchored pattern
(?!-)[a-z0-9-]{1,63}(?<!-)$ with IGNORECASE: one to sixty-three characters of
the class, with no hyphen first or last. -/
def hostnameLabelOk (cs : List Char) : Bool :=
  decide (1 ≤ cs.length) && decide (cs.length ≤ 63) && cs.all hostnameLabelChar
    && !(cs.head? == some ('-')) && !(cs.getLast? == some ('-'))

/-- Function valid_hostname from target_config.py: non-blank, one trailing dot
stripped, at most 253 characters, final dot-separated label not all numeric,
and every label matching HOSTNAME_RE. -/
def valid_hostname (hostname : String) : Bool :=
  if isBlank hostname then false
  else
    let cs := hostname.data
    let cs := if cs.getLast? == some ('.') then cs.dropLast else cs
    if 253 < cs.length then false
    else
      let labels := splitOnChar ('.') cs
      if allDigitsL (labels.getLastD []) then false
      else labels.all hostnameLabelOk

/-- Characters of the inner class [a-zA-Z0-9-_] of the domain regex of the
external validators library. -/
def domainPartChar (c : Char) : Bool := c.isAlphanum || c == '-' || c == '_'

/-- Modelled from the external validators library: one non-final dot-separated
component of a domain, the group [a-zA-Z0-9]([a-zA-Z0-9-_]{0,61}[A-Za-z0-9])?
of its domain regex. -/
def domainPartOk (cs : List Char) : Bool :=
  match cs with
  | [] => false
  | [c] => c.isAlphanum
  | c :: rest =>
    c.isAlphanum && decide (rest.length ≤ 62) && rest.all domainPartChar
      && (rest.getLastD ('a')).isAlphanum

/-- Modelled from the external validators library: the final component of a
domain, the group [A-Za-z0-9][A-Za-z0-9-_]{0,61}[A-Za-z] of its domain regex. -/
def domainTldOk (cs : List Char) : Bool :=
  match cs with
  | [] => false
  | [_] => false
  | c :: rest =>
    c.isAlphanum && decide (rest.length ≤ 62) && rest.dropLast.all domainPartChar
      && (rest.getLastD ('a')).isAlpha

/-- Modelled from the external validators library: validators.domain, the
anchored regex (component dot)+ tld. -/
def validators_domain (s : String) : Bool :=
  let parts := splitOnChar ('.') s.data
  decide (2 ≤ parts.length) && parts.dropLast.all domainPartOk
    && domainTldOk (parts.getLastD [])

/-- Modelled from the external validators library: validators.ipv4, which
splits on dots and requires four all-digit groups each below 256. -/
def validators_ipv4 (s : String) : Bool :=
  let groups := splitOnChar ('.') s.data
  decide (groups.length = 4)
    && groups.all (fun g => allDigitsL g && decide (digitsToNatL g < 256))

/-- Inner helper valid_host of validate_target: a host accepted by
valid_hostname, validators.domain or validators.ipv4; anything else raises
ValueError. -/
def valid_host (host : String) : Except String Bool :=
  if valid_hostname host then .ok true
  else if validators_domain host then .ok true
  else if validators_ipv4 host then .ok true
  else .error ("Invalid host " ++ host)

/-- Inner helper valid_port of validate_target: an all-digit string whose
value lies in range(1, 2 ** 16); anything else raises ValueError. -/
def valid_port (port : String) : Except String Bool :=
  if !allDigits port then .error ("Port must be integer " ++ port)
  else if !(decide (1 ≤ digitsToNat port) && decide (digitsToNat port < 65536)) then
    .error ("Invalid port number " ++ port)
  else .ok true

/-- Part of the character list before the first colon and the optional
remainder after it. -/
def splitFirstColonList : List Char → List Char × Option (List Char)
  | [] => ([], none)
  | c :: rest =>
    if c = ':' then ([], some rest)
    else
      let r := splitFirstColonList rest
      (c :: r.1, r.2)

/-- Python target.split(":", maxsplit=1) packaged back into strings. -/
def splitFirstColon (s : String) : String × Option String :=
  let r := splitFirstColonList s.data
  (String.mk r.1, r.2.map (fun cs => String.mk cs))

/-- Static method TargetConfig.validate_target: split at the first colon,
reject a blank host, default the port to 80 when absent, then check the host
and the port in that order. -/
def validate_target (target : String) : Except String Bool :=
  let hp := splitFirstColon target
  if isBlank hp.1 then .error ("Empty hostname")
  else
    let port := match hp.2 with
      | none => "80"
      | some p => p
    match valid_host hp.1 with
    | .error e => .error e
    | .ok _ => valid_port port

/-- Pattern METRIC_LABEL_NAME_RE from prometheus_client, the fully anchored
regex [a-zA-Z_][a-zA-Z0-9_]*. -/
def validLabelName (name : String) : Bool :=
  match name.data with
  | [] => false
  | c :: rest => (c.isAlpha || c == '_') && rest.all (fun x => x.isAlphanum || x == '_')

/-- Static method TargetConfig.validate_label: the UTF-8 encoding check on the
value always succeeds for a Lean string, and the name must match
METRIC_LABEL_NAME_RE; otherwise ValueError is raised. -/
def validate_label (name value : String) : Except String Bool :=
  if !validLabelName name then .error ("Invalid label " ++ name)
  else .ok true

/-- The TargetConfig attrs class of target_config.py.  The private filename
cache and the asyncio file lock carry no record data and are not part of the
value model. -/
structure TargetConfig where
  application : String
  environment : String
  targets : List String
  labels : Dict
deriving Repr, DecidableEq

/-- Validator validate_targets of the targets attribute: validates every
target in order, raising at the first invalid one. -/
def validateTargetsList : List String → Except String Bool
  | [] => .ok true
  | t :: rest =>
    match validate_target t with
    | .error e => .error e
    | .ok _ => validateTargetsList rest

/-- Validator validate_labels of the labels attribute: validates every pair in
order, raising at the first invalid one. -/
def validateLabelsDict : Dict → Except String Bool
  | [] => .ok true
  | (k, v) :: rest =>
    match validate_label k v with
    | .error e => .error e
    | .ok _ => validateLabelsDict rest

/-- Labels produced by the post-construction hook of TargetConfig from the
caller-supplied labels: an empty dict becomes the two protected entries, then
a missing job key defaults to the application and a missing env key defaults
to the environment (Python dict assignment appends the missing key). -/
def postLabels (app env : String) (ls : Dict) : Dict :=
  let l0 := if ls.isEmpty then [("job", app), ("env", env)] else ls
  let l1 := if hasKey l0 ("job") then l0 else l0 ++ [("job", app)]
  if hasKey l1 ("env") then l1 else l1 ++ [("env", env)]

/-- Post-construction hook of TargetConfig, attrs_post_init. -/
def post_init (tc : TargetConfig) : TargetConfig :=
  { tc with labels := postLabels tc.application tc.environment tc.labels }

/-- Construction of a TargetConfig: attrs runs the two validators on the
caller-supplied targets and labels (in field order, before the post-init
hook), then the post-init hook fills in the protected labels. -/
def mkTargetConfig (application environment : String) (targets : List String) (labels : Dict) :
    Except String TargetConfig :=
  match validateTargetsList targets with
  | .error e => .error e
  | .ok _ =>
    match validateLabelsDict labels with
    | .error e => .error e
    | .ok _ =>
      .ok (post_init { application := application, environment := environment,
                       targets := targets, labels := labels })

/-- Python dict equality between two dicts: the same keys bound to the same
values, independent of insertion order. -/
def dictBeq (a b : Dict) : Bool :=
  a.all (fun p => lookup b p.1 == some p.2) && b.all (fun p => lookup a p.1 == some p.2)

/-- Equality dunder of TargetConfig: all attributes except the file lock,
comparing the target lists sorted (equality of sorted lists is equality up to
permutation) and the labels as dicts. -/
def targetConfigEq (a b : TargetConfig) : Bool :=
  a.application == b.application && a.environment == b.environment
    && a.targets.isPerm b.targets && dictBeq a.labels b.labels

/-- One element of the JSON list stored in a target config file. -/
structure SDEntry where
  targets : List String
  labels : Dict
deriving Repr, DecidableEq

/-- Property TargetConfig.json, modelled at the level of the parsed JSON
document: a single-element list with the targets (order preserved) and the
labels. -/
def serialize (tc : TargetConfig) : List SDEntry :=
  [{ targets := tc.targets, labels := tc.labels }]

/-- Classmethod TargetConfig.from_json_file applied to an already parsed
document: takes the first element, reads application from labels at job and
environment from labels at env (KeyError when absent, IndexError when the
list is empty), and constructs a TargetConfig from them. -/
def from_json_doc (doc : List SDEntry) : Except String TargetConfig :=
  match doc with
  | [] => .error ("IndexError")
  | entry :: _ =>
    match lookup entry.labels ("job"), lookup entry.labels ("env") with
    | some app, some env => mkTargetConfig app env entry.targets entry.labels
    | _, _ => .error ("KeyError")

/-- Loop of update_with_new_targets over the requested targets: stops with
False at the first target already present, raises at the first invalid one. -/
def addTargetsLoop (cur : List String) : List String → Except String Bool
  | [] => .ok true
  | t :: rest =>
    if t ∈ cur then .ok false
    else
      match validate_target t with
      | .error e => .error e
      | .ok _ => addTargetsLoop cur rest

/-- Method TargetConfig.update_with_new_targets.  The source comparison of
sorted(set(targets)) with sorted(targets) succeeds exactly when the requested
list has no duplicate, embedded as the Nodup test. -/
def update_with_new_targets (tc : TargetConfig) (targets : List String) :
    Except String (Bool × TargetConfig) :=
  if targets.isEmpty then .ok (false, tc)
  else if ¬ targets.Nodup then .ok (false, tc)
  else
    match addTargetsLoop tc.targets targets with
    | .error e => .error e
    | .ok true => .ok (true, { tc with targets := tc.targets ++ targets })
    | .ok false => .ok (false, tc)

/-- Loop of update_with_new_labels over the requested pairs: skips names not
yet present, stops with False at a blank value or a value equal to the stored
one, validates the pair otherwise. -/
def updateLabelsLoop (cur : Dict) : Dict → Except String Bool
  | [] => .ok true
  | (name, value) :: rest =>
    if !hasKey cur name then updateLabelsLoop cur rest
    else if isBlank value then .ok false
    else if lookup cur name == some value then .ok false
    else
      match validate_label name value with
      | .error e => .error e
      | .ok _ => updateLabelsLoop cur rest

/-- Method TargetConfig.update_with_new_labels. -/
def update_with_new_labels (tc : TargetConfig) (labels : Dict) :
    Except String (Bool × TargetConfig) :=
  if labels.isEmpty then .ok (false, tc)
  else
    match updateLabelsLoop tc.labels labels with
    | .error e => .error e
    | .ok true => .ok (true, { tc with labels := updateDict tc.labels labels })
    | .ok false => .ok (false, tc)

/-- Method TargetConfig.delete_from_targets.  The final assignment
list(set(self.targets) - set(targets)) is embedded as dedup followed by
filter; the Python set iteration order is arbitrary, so this fixes the
first-occurrence order as the representative of that set. -/
def delete_from_targets (tc : TargetConfig) (targets : List String) : Bool × TargetConfig :=
  if targets.isEmpty then (false, tc)
  else if ¬ (∀ t ∈ targets, t ∈ tc.targets) then (false, tc)
  else if ¬ targets.Nodup then (false, tc)
  else if targets.length = tc.targets.length then (false, tc)
  else (true, { tc with targets := tc.targets.dedup.filter (fun t => !targets.contains t) })

/-- Loop of delete_from_labels over the requested pairs: False at a name not
present or at a supplied value that differs from the stored one. -/
def deleteLabelsLoop (cur : Dict) : Dict → Bool
  | [] => true
  | (name, value) :: rest =>
    if !hasKey cur name then false
    else if !(lookup cur name == some value) then false
    else deleteLabelsLoop cur rest

/-- Method TargetConfig.delete_from_labels. -/
def delete_from_labels (tc : TargetConfig) (labels : Dict) : Bool × TargetConfig :=
  if labels.isEmpty then (false, tc)
  else if hasKey labels ("job") || hasKey labels ("env") then (false, tc)
  else if deleteLabelsLoop tc.labels labels then
    (true, { tc with labels := eraseAll tc.labels labels })
  else (false, tc)

/-- Targets-only branch of the PUT handler of rest_api.py: validates every
requested target and then assigns the list wholesale to the targets
attribute. -/
def replaceTargetsForPut (tc : TargetConfig) (new : List String) : Except String TargetConfig :=
  match validateTargetsList new with
  | .error e => .error e
  | .ok _ => .ok { tc with targets := new }

/-- Function replace_labels_for_put of rest_api.py: a missing job or env key
of the supplied dict is filled from the current labels (KeyError when the
current labels lack it), every pair is validated, and the labels attribute is
assigned wholesale. -/
def replace_labels_for_put (tc : TargetConfig) (newLabels : Dict) : Except String TargetConfig :=
  match (if hasKey newLabels ("job") then some newLabels
         else match lookup tc.labels ("job") with
           | some v => some (newLabels ++ [("job", v)])
           | none => none) with
  | none => .error ("KeyError job")
  | some l1 =>
    match (if hasKey l1 ("env") then some l1
           else match lookup tc.labels ("env") with
             | some v => some (l1 ++ [("env", v)])
             | none => none) with
    | none => .error ("KeyError env")
    | some l2 =>
      match validateLabelsDict l2 with
      | .error e => .error e
      | .ok _ => .ok { tc with labels := l2 }

/-- Number of distinct keys of the dict: the len of the Python dict and the
number of properties of the JSON object written from it. -/
def dictSize (d : Dict) : Nat := (d.map Prod.fst).dedup.length

/-- Check of an optional JSON object member against required presence plus the
NON_EMPTY_STRING schema of target_config_schema.py. -/
def presentNonEmpty (v : Option String) : Bool :=
  match v with
  | none => false
  | some s => !s.data.isEmpty

/-- Method TargetConfig.valid_prometheus_json: jsonschema validation of the
serialized document against TARGET_CONFIG_FILE_SCHEMA, unfolded over the
document produced by serialize.  The document always is a one-element list of
an object with exactly the two required properties, so what remains is:
targets non-empty (minItems 1; the misuse of the items keyword inside a
properties keyword leaves the element type unconstrained), labels with at
least two properties, and job and env present as non-empty strings. -/
def valid_prometheus_json (tc : TargetConfig) : Bool :=
  !tc.targets.isEmpty
    && decide (2 ≤ dictSize tc.labels)
    && presentNonEmpty (lookup tc.labels ("job"))
    && presentNonEmpty (lookup tc.labels ("env"))

/-- Stand-in for the md5-derived file name of the record: a fixed pure
function of the concatenation of application and environment, as the source
hash is. -/
def filename (tc : TargetConfig) : String := tc.application ++ tc.environment ++ (".json")

/-- Errors of write_to_file: TypeError for a schema violation and
FileNotFoundError for a missing directory. -/
inductive WriteError where
  | schemaError
  | notFound
deriving Repr, DecidableEq

/-- Contents of the service-discovery directory: file name to parsed
document. -/
abbrev FileSys := List (String × List SDEntry)

/-- Creation or atomic replacement of one file of the directory. -/
def fsWrite (fs : FileSys) (name : String) (doc : List SDEntry) : FileSys :=
  if (fs.map Prod.fst).contains name then
    fs.map (fun p => if p.1 = name then (name, doc) else p)
  else fs ++ [(name, doc)]

/-- Method TargetConfig.write_to_file over the explicit directory state:
returns the directory contents and the raised error when one occurs.  The
schema check comes first, the directory check second, and only then is the
serialized document written under the record file name. -/
def write_to_file (tc : TargetConfig) (dirExists : Bool) (fs : FileSys) :
    FileSys × Option WriteError :=
  if !valid_prometheus_json tc then (fs, some WriteError.schemaError)
  else if !dirExists then (fs, some WriteError.notFound)
  else (fsWrite fs (filename tc) (serialize tc), none)

/-- Record used by the concrete counterexamples and witnesses. -/
def demoRecord : TargetConfig :=
  { application := "app", environment := "env", targets := ["a"],
    labels := [("job", "app"), ("env", "env")] }

/-- Record whose job label overrides the application, used by the round-trip
counterexample. -/
def demoOverride : TargetConfig :=
  { application := "app", environment := "env", targets := ["h"],
    labels := [("job", "other"), ("env", "env")] }

/-! Lemmas about the dict embedding. -/

theorem lookup_append (d1 d2 : Dict) (k : String) :
    lookup (d1 ++ d2) k =
      match lookup d1 k with
      | some v => some v
      | none => lookup d2 k := by
  induction d1 with
  | nil => simp [lookup]
  | cons p rest ih =>
    obtain ⟨k0, v0⟩ := p
    by_cases h : k0 = k
    · simp [lookup, h]
    · simpa [lookup, h] using ih

theorem lookup_eq_none_of_not_hasKey {d : Dict} {k : String} (h : hasKey d k = false) :
    lookup d k = none := by
  unfold hasKey at h
  cases hl : lookup d k with
  | none => rfl
  | some v => rw [hl] at h; simp at h

theorem mem_of_lookup_eq_some {d : Dict} {k v : String} (h : lookup d k = some v) :
    (k, v) ∈ d := by
  induction d with
  | nil => simp [lookup] at h
  | cons p rest ih =>
    obtain ⟨k0, v0⟩ := p
    by_cases hk : k0 = k
    · subst hk
      simp only [lookup, if_pos rfl] at h
      injection h with hv
      subst hv
      exact List.mem_cons_self _ _
    · simp only [lookup, if_neg hk] at h
      exact List.mem_cons_of_mem _ (ih h)

theorem lookup_ne_nil {d : Dict} {k v : String} (h : lookup d k = some v) :
    d.isEmpty = false := by
  cases d with
  | nil => simp [lookup] at h
  | cons p rest => rfl

theorem lookup_eq_some_of_mem {d : Dict} {k v : String} (hnd : keysNodup d)
    (hm : (k, v) ∈ d) : lookup d k = some v := by
  induction d with
  | nil => simp at hm
  | cons p rest ih =>
    obtain ⟨k0, v0⟩ := p
    unfold keysNodup at hnd
    simp only [List.map_cons, List.nodup_cons] at hnd
    rcases List.mem_cons.1 hm with h | h
    · injection h with h1 h2
      subst h1
      subst h2
      simp [lookup]
    · have hk : k0 ≠ k := by
        intro he
        subst he
        exact hnd.1 (List.mem_map.2 ⟨(k0, v), h, rfl⟩)
      simp only [lookup, if_neg hk]
      exact ih hnd.2 h

theorem dictBeq_refl {d : Dict} (hnd : keysNodup d) : dictBeq d d = true := by
  have h : ∀ p ∈ d, (lookup d p.1 == some p.2) = true := by
    intro p hp
    obtain ⟨a, b⟩ := p
    rw [beq_iff_eq]
    exact lookup_eq_some_of_mem hnd hp
  unfold dictBeq
  rw [List.all_eq_true.2 h, Bool.and_self]

theorem lookup_mapReplace_self (d : Dict) (k v : String) :
    lookup (d.map (fun p => if p.1 = k then (k, v) else p)) k =
      match lookup d k with
      | some _ => some v
      | none => none := by
  induction d with
  | nil => simp [lookup]
  | cons p rest ih =>
    obtain ⟨k0, v0⟩ := p
    simp only [List.map_cons]
    by_cases h : k0 = k
    · rw [show (if (k0, v0).1 = k then (k, v) else (k0, v0)) = (k, v) from if_pos h]
      simp [lookup, h]
    · rw [show (if (k0, v0).1 = k then (k, v) else (k0, v0)) = (k0, v0) from if_neg h]
      simp [lookup, h, ih]

theorem lookup_mapReplace_ne (d : Dict) {k k2 : String} (v : String) (h : k2 ≠ k) :
    lookup (d.map (fun p => if p.1 = k then (k, v) else p)) k2 = lookup d k2 := by
  induction d with
  | nil => simp
  | cons p rest ih =>
    obtain ⟨k0, v0⟩ := p
    simp only [List.map_cons]
    by_cases h0 : k0 = k
    · rw [show (if (k0, v0).1 = k then (k, v) else (k0, v0)) = (k, v) from if_pos h0]
      subst h0
      have hne : k0 ≠ k2 := fun hh => h hh.symm
      simp [lookup, hne, ih]
    · rw [show (if (k0, v0).1 = k then (k, v) else (k0, v0)) = (k0, v0) from if_neg h0]
      by_cases h2 : k0 = k2
      · subst h2
        simp [lookup, h0]
      · simp [lookup, h0, h2, ih]

theorem lookup_setKey_self (d : Dict) (k v : String) :
    lookup (setKey d k v) k = some v := by
  unfold setKey
  by_cases h : hasKey d k = true
  · rw [if_pos h, lookup_mapReplace_self]
    unfold hasKey at h
    cases hl : lookup d k with
    | none => rw [hl] at h; simp at h
    | some w => simp
  · rw [if_neg h, lookup_append,
      lookup_eq_none_of_not_hasKey (by simpa using h)]
    simp [lookup]

theorem lookup_setKey_ne (d : Dict) {k k2 : String} (v : String) (h : k2 ≠ k) :
    lookup (setKey d k v) k2 = lookup d k2 := by
  unfold setKey
  by_cases hk : hasKey d k = true
  · rw [if_pos hk]
    exact lookup_mapReplace_ne d v h
  · rw [if_neg hk, lookup_append]
    cases hl : lookup d k2 with
    | some v2 => rfl
    | none =>
      have hne : k ≠ k2 := fun hh => h hh.symm
      simp [lookup, hne]

theorem hasKey_setKey_mono {d : Dict} {k2 : String} (k v : String)
    (h : hasKey d k2 = true) : hasKey (setKey d k v) k2 = true := by
  by_cases hk : k2 = k
  · subst hk
    unfold hasKey
    rw [lookup_setKey_self]
    rfl
  · unfold hasKey
    rw [lookup_setKey_ne d v hk]
    exact h

theorem lookup_updateDict (d u : Dict) (k : String) (hu : keysNodup u) :
    lookup (updateDict d u) k =
      match lookup u k with
      | some v => some v
      | none => lookup d k := by
  induction u generalizing d with
  | nil => simp [updateDict, lookup]
  | cons p rest ih =>
    obtain ⟨k0, v0⟩ := p
    unfold keysNodup at hu
    simp only [List.map_cons, List.nodup_cons] at hu
    have step : updateDict d ((k0, v0) :: rest) = updateDict (setKey d k0 v0) rest := rfl
    rw [step, ih (setKey d k0 v0) hu.2]
    by_cases hk : k0 = k
    · subst hk
      have hrest : lookup rest k0 = none := by
        cases hl : lookup rest k0 with
        | none => rfl
        | some w =>
          exact absurd (List.mem_map.2 ⟨(k0, w), mem_of_lookup_eq_some hl, rfl⟩) hu.1
      simp [lookup, hrest, lookup_setKey_self]
    · have hne : k ≠ k0 := fun hh => hk hh.symm
      simp only [lookup, if_neg hk]
      cases hl : lookup rest k with
      | some w => rfl
      | none => simp only [lookup_setKey_ne d v0 hne]

theorem hasKey_updateDict_mono {d : Dict} {k : String} (u : Dict)
    (h : hasKey d k = true) : hasKey (updateDict d u) k = true := by
  induction u generalizing d with
  | nil => exact h
  | cons p rest ih => exact ih (hasKey_setKey_mono p.1 p.2 h)

theorem lookup_eraseKey (d : Dict) (k k2 : String) :
    lookup (eraseKey d k) k2 = if k2 = k then none else lookup d k2 := by
  induction d with
  | nil => simp [eraseKey, lookup]
  | cons p rest ih =>
    obtain ⟨k0, v0⟩ := p
    unfold eraseKey at ih ⊢
    by_cases h0 : k0 = k
    · subst h0
      by_cases h2 : k2 = k0
      · subst h2
        simp [lookup, ih]
      · have hne : k0 ≠ k2 := fun hh => h2 hh.symm
        simp [lookup, ih, h2, hne]
    · by_cases h2 : k0 = k2
      · subst h2
        simp [lookup, h0]
      · simp [lookup, h0, h2, ih]

theorem lookup_eraseAll (d victims : Dict) (k : String) :
    lookup (eraseAll d victims) k =
      if hasKey victims k then none else lookup d k := by
  induction victims generalizing d with
  | nil => simp [eraseAll, hasKey, lookup]
  | cons p rest ih =>
    obtain ⟨k0, v0⟩ := p
    have step : eraseAll d ((k0, v0) :: rest) = eraseAll (eraseKey d k0) rest := rfl
    rw [step, ih (eraseKey d k0)]
    by_cases hk : k = k0
    · subst hk
      by_cases hr : hasKey rest k = true
      · rw [if_pos hr]
        have hck : hasKey ((k, v0) :: rest) k = true := by simp [hasKey, lookup]
        rw [if_pos hck]
      · simp only [Bool.not_eq_true] at hr
        rw [if_neg (by simp [hr]), lookup_eraseKey, if_pos rfl]
        have hck : hasKey ((k, v0) :: rest) k = true := by simp [hasKey, lookup]
        rw [if_pos hck]
    · have hne : k0 ≠ k := fun hh => hk hh.symm
      have hc : hasKey ((k0, v0) :: rest) k = hasKey rest k := by
        simp [hasKey, lookup, hne]
      rw [hc]
      by_cases hr : hasKey rest k = true
      · rw [if_pos hr, if_pos hr]
      · simp only [Bool.not_eq_true] at hr
        rw [if_neg (by simp [hr]), if_neg (by simp [hr]), lookup_eraseKey, if_neg hk]

theorem hasKey_of_lookup {d : Dict} {k v : String} (h : lookup d k = some v) :
    hasKey d k = true := by
  unfold hasKey
  rw [h]
  rfl

theorem lookup_of_hasKey {d : Dict} {k : String} (h : hasKey d k = true) :
    ∃ v, lookup d k = some v := by
  unfold hasKey at h
  exact Option.isSome_iff_exists.1 h

theorem lookup_append_left {d d2 : Dict} {k v : String} (h : lookup d k = some v) :
    lookup (d ++ d2) k = some v := by
  rw [lookup_append, h]

theorem hasKey_append_mono {d : Dict} {k : String} (d2 : Dict)
    (h : hasKey d k = true) : hasKey (d ++ d2) k = true := by
  obtain ⟨v, hv⟩ := lookup_of_hasKey h
  exact hasKey_of_lookup (lookup_append_left hv)

theorem hasKey_append_right (d : Dict) (k v : String) :
    hasKey (d ++ [(k, v)]) k = true := by
  unfold hasKey
  rw [lookup_append]
  cases hl : lookup d k with
  | some w => rfl
  | none => simp [lookup]

theorem lookup_append_single_ne (d : Dict) {k k2 : String} (v : String) (h : k2 ≠ k) :
    lookup (d ++ [(k, v)]) k2 = lookup d k2 := by
  rw [lookup_append]
  cases hl : lookup d k2 with
  | some w => rfl
  | none =>
    have hne : k ≠ k2 := fun hh => h hh.symm
    simp [lookup, hne]

theorem hasKey_append_single_ne (d : Dict) {k k2 : String} (v : String) (h : k2 ≠ k) :
    hasKey (d ++ [(k, v)]) k2 = hasKey d k2 := by
  unfold hasKey
  rw [lookup_append_single_ne d v h]

/-! Lemmas about the post-construction hook. -/

theorem postLabels_hasKey_job (app env : String) (ls : Dict) :
    hasKey (postLabels app env ls) ("job") = true := by
  unfold postLabels
  set l0 := if ls.isEmpty then [("job", app), ("env", env)] else ls with hl0
  have h1 : hasKey (if hasKey l0 ("job") then l0 else l0 ++ [("job", app)]) ("job") = true := by
    by_cases h : hasKey l0 ("job") = true
    · rw [if_pos h]; exact h
    · rw [if_neg h]; exact hasKey_append_right l0 ("job") app
  set l1 := if hasKey l0 ("job") then l0 else l0 ++ [("job", app)] with hl1
  by_cases h2 : hasKey l1 ("env") = true
  · rw [if_pos h2]; exact h1
  · rw [if_neg h2]; exact hasKey_append_mono _ h1

theorem postLabels_hasKey_env (app env : String) (ls : Dict) :
    hasKey (postLabels app env ls) ("env") = true := by
  unfold postLabels
  set l0 := if ls.isEmpty then [("job", app), ("env", env)] else ls with hl0
  set l1 := if hasKey l0 ("job") then l0 else l0 ++ [("job", app)] with hl1
  by_cases h2 : hasKey l1 ("env") = true
  · rw [if_pos h2]; exact h2
  · rw [if_neg h2]; exact hasKey_append_right l1 ("env") env

theorem postLabels_id {ls : Dict} (app env : String)
    (hj : hasKey ls ("job") = true) (he : hasKey ls ("env") = true) :
    postLabels app env ls = ls := by
  obtain ⟨v, hv⟩ := lookup_of_hasKey hj
  have hne : ls.isEmpty = false := lookup_ne_nil hv
  unfold postLabels
  rw [hne]
  simp only [Bool.false_eq_true, if_false, if_pos hj, if_pos he]

theorem postLabels_lookup_job_keep (app env : String) {ls : Dict} {v : String}
    (h : lookup ls ("job") = some v) :
    lookup (postLabels app env ls) ("job") = some v := by
  unfold postLabels
  rw [lookup_ne_nil h]
  simp only [Bool.false_eq_true, if_false, if_pos (hasKey_of_lookup h)]
  by_cases h2 : hasKey ls ("env") = true
  · rw [if_pos h2]; exact h
  · rw [if_neg h2]; exact lookup_append_left h

theorem postLabels_lookup_env_keep (app env : String) {ls : Dict} {v : String}
    (h : lookup ls ("env") = some v) :
    lookup (postLabels app env ls) ("env") = some v := by
  unfold postLabels
  rw [lookup_ne_nil h]
  simp only [Bool.false_eq_true, if_false]
  set l1 := if hasKey ls ("job") then ls else ls ++ [("job", app)] with hl1
  have h1 : lookup l1 ("env") = some v := by
    rw [hl1]
    by_cases hj : hasKey ls ("job") = true
    · rw [if_pos hj]; exact h
    · rw [if_neg hj]; exact lookup_append_left h
  rw [if_pos (hasKey_of_lookup h1)]
  exact h1

theorem postLabels_lookup_job_default (app env : String) {ls : Dict}
    (h : hasKey ls ("job") = false) :
    lookup (postLabels app env ls) ("job") = some app := by
  unfold postLabels
  by_cases he : ls.isEmpty = true
  · rw [he]
    simp [hasKey, lookup]
  · rw [Bool.not_eq_true] at he
    rw [he]
    have hnj : ¬ (hasKey ls ("job") = true) := by simp [h]
    simp only [Bool.false_eq_true, if_false, if_neg hnj]
    have h1 : lookup (ls ++ [("job", app)]) ("job") = some app := by
      rw [lookup_append, lookup_eq_none_of_not_hasKey h]
      simp [lookup]
    by_cases h2 : hasKey (ls ++ [("job", app)]) ("env") = true
    · rw [if_pos h2]; exact h1
    · rw [if_neg h2]; exact lookup_append_left h1

theorem postLabels_lookup_env_default (app env : String) {ls : Dict}
    (h : hasKey ls ("env") = false) :
    lookup (postLabels app env ls) ("env") = some env := by
  unfold postLabels
  by_cases hemp : ls.isEmpty = true
  · rw [hemp]
    simp [hasKey, lookup]
  · rw [Bool.not_eq_true] at hemp
    rw [hemp]
    simp only [Bool.false_eq_true, if_false]
    set l1 := if hasKey ls ("job") then ls else ls ++ [("job", app)] with hl1
    have h1 : hasKey l1 ("env") = false := by
      rw [hl1]
      by_cases hj : hasKey ls ("job") = true
      · rw [if_pos hj]; exact h
      · rw [if_neg hj]
        rw [hasKey_append_single_ne ls app (by decide)]
        exact h
    have hne : ¬ (hasKey l1 ("env") = true) := by simp [h1]
    rw [if_neg hne]
    rw [lookup_append, lookup_eq_none_of_not_hasKey h1]
    simp [lookup]

/-! Lemmas about the attribute validators and construction. -/

theorem validateTargetsList_ok {l : List String}
    (h : ∀ t ∈ l, (validate_target t).isOk = true) :
    validateTargetsList l = .ok true := by
  induction l with
  | nil => rfl
  | cons t rest ih =>
    have ht := h t (List.mem_cons_self _ _)
    cases hvt : validate_target t with
    | error e => rw [hvt] at ht; simp [Except.isOk, Except.toBool] at ht
    | ok b =>
      simp only [validateTargetsList, hvt]
      exact ih (fun x hx => h x (List.mem_cons_of_mem _ hx))

theorem validateLabelsDict_ok {l : Dict}
    (h : ∀ p ∈ l, validLabelName p.1 = true) :
    validateLabelsDict l = .ok true := by
  induction l with
  | nil => rfl
  | cons p rest ih =>
    obtain ⟨k, v⟩ := p
    have hk := h (k, v) (List.mem_cons_self _ _)
    have hvl : validate_label k v = .ok true := by
      unfold validate_label
      rw [hk]
      rfl
    simp only [validateLabelsDict, hvl]
    exact ih (fun x hx => h x (List.mem_cons_of_mem _ hx))

theorem mkTargetConfig_ok {a e : String} {ts : List String} {ls : Dict} {tc : TargetConfig}
    (h : mkTargetConfig a e ts ls = .ok tc) :
    tc = post_init { application := a, environment := e, targets := ts, labels := ls } := by
  unfold mkTargetConfig at h
  cases h1 : validateTargetsList ts with
  | error e1 => rw [h1] at h; simp at h
  | ok b1 =>
    rw [h1] at h
    cases h2 : validateLabelsDict ls with
    | error e2 => rw [h2] at h; simp at h
    | ok b2 =>
      rw [h2] at h
      injection h with h3
      exact h3.symm

/-! Lemmas about the mutation loops. -/

theorem addTargetsLoop_disjoint {cur l : List String}
    (hv : ∀ t ∈ l, (validate_target t).isOk = true)
    (hd : ∀ t ∈ l, t ∉ cur) :
    addTargetsLoop cur l = .ok true := by
  induction l with
  | nil => rfl
  | cons t rest ih =>
    have hm : t ∉ cur := hd t (List.mem_cons_self _ _)
    have ht := hv t (List.mem_cons_self _ _)
    cases hvt : validate_target t with
    | error e => rw [hvt] at ht; simp [Except.isOk, Except.toBool] at ht
    | ok b =>
      simp only [addTargetsLoop, if_neg hm, hvt]
      exact ih (fun x hx => hv x (List.mem_cons_of_mem _ hx))
        (fun x hx => hd x (List.mem_cons_of_mem _ hx))

theorem addTargetsLoop_overlap {cur l : List String}
    (hv : ∀ t ∈ l, (validate_target t).isOk = true)
    (hd : ∃ t ∈ l, t ∈ cur) :
    addTargetsLoop cur l = .ok false := by
  induction l with
  | nil => simp at hd
  | cons t rest ih =>
    by_cases hm : t ∈ cur
    · simp [addTargetsLoop, hm]
    · have ht := hv t (List.mem_cons_self _ _)
      cases hvt : validate_target t with
      | error e => rw [hvt] at ht; simp [Except.isOk, Except.toBool] at ht
      | ok b =>
        simp only [addTargetsLoop, if_neg hm, hvt]
        apply ih (fun x hx => hv x (List.mem_cons_of_mem _ hx))
        obtain ⟨x, hx, hxc⟩ := hd
        rcases List.mem_cons.1 hx with he | hx2
        · subst he
          exact absurd hxc hm
        · exact ⟨x, hx2, hxc⟩

theorem addTargetsLoop_error {cur : List String} (pre post : List String) {t : String}
    (hpre : ∀ p ∈ pre, (validate_target p).isOk = true ∧ p ∉ cur)
    (hm : t ∉ cur) (hbad : (validate_target t).isOk = false) :
    (addTargetsLoop cur (pre ++ t :: post)).isOk = false := by
  induction pre with
  | nil =>
    cases hvt : validate_target t with
    | error e =>
      simp only [List.nil_append, addTargetsLoop, if_neg hm, hvt]
      rfl
    | ok b => rw [hvt] at hbad; simp [Except.isOk, Except.toBool] at hbad
  | cons p rest ih =>
    have hp := hpre p (List.mem_cons_self _ _)
    cases hvp : validate_target p with
    | error e =>
      rw [hvp] at hp
      simp [Except.isOk, Except.toBool] at hp
    | ok b =>
      simp only [List.cons_append, addTargetsLoop, if_neg hp.2, hvp]
      exact ih (fun x hx => hpre x (List.mem_cons_of_mem _ hx))

theorem updateLabelsLoop_pass {cur u : Dict}
    (hwf : ∀ p ∈ u, hasKey cur p.1 = true → validLabelName p.1 = true)
    (hok : ∀ p ∈ u, hasKey cur p.1 = true →
      (isBlank p.2 = false ∧ lookup cur p.1 ≠ some p.2)) :
    updateLabelsLoop cur u = .ok true := by
  induction u with
  | nil => rfl
  | cons p rest ih =>
    obtain ⟨name, value⟩ := p
    have tail := ih (fun x hx => hwf x (List.mem_cons_of_mem _ hx))
      (fun x hx => hok x (List.mem_cons_of_mem _ hx))
    by_cases hk : hasKey cur name = true
    · have h1 := hok _ (List.mem_cons_self _ _) hk
      have h2 := hwf _ (List.mem_cons_self _ _) hk
      have hbeq : (lookup cur name == some value) = false := by
        rw [beq_eq_false_iff_ne]
        exact h1.2
      have hvl : validate_label name value = .ok true := by
        unfold validate_label
        rw [h2]
        rfl
      simp only [updateLabelsLoop, hk, Bool.not_true, Bool.false_eq_true, if_false,
        h1.1, hbeq, hvl]
      exact tail
    · rw [Bool.not_eq_true] at hk
      simp only [updateLabelsLoop, hk, Bool.not_false, if_true]
      exact tail

theorem updateLabelsLoop_fail {cur u : Dict}
    (hwf : ∀ p ∈ u, hasKey cur p.1 = true → validLabelName p.1 = true)
    (hbad : ∃ p ∈ u, hasKey cur p.1 = true ∧
      (isBlank p.2 = true ∨ lookup cur p.1 = some p.2)) :
    updateLabelsLoop cur u = .ok false := by
  induction u with
  | nil => simp at hbad
  | cons p rest ih =>
    obtain ⟨name, value⟩ := p
    by_cases hk : hasKey cur name = true
    · by_cases hb : isBlank value = true
      · simp only [updateLabelsLoop, hk, Bool.not_true, Bool.false_eq_true, if_false, hb,
          if_true]
      · rw [Bool.not_eq_true] at hb
        by_cases hs : lookup cur name = some value
        · have hbeq : (lookup cur name == some value) = true := by
            rw [beq_iff_eq]
            exact hs
          simp only [updateLabelsLoop, hk, Bool.not_true, Bool.false_eq_true, if_false, hb,
            hbeq, if_true]
        · have hbeq : (lookup cur name == some value) = false := by
            rw [beq_eq_false_iff_ne]
            exact hs
          have h2 := hwf _ (List.mem_cons_self _ _) hk
          have hvl : validate_label name value = .ok true := by
            unfold validate_label
            rw [h2]
            rfl
          simp only [updateLabelsLoop, hk, Bool.not_true, Bool.false_eq_true, if_false, hb,
            hbeq, hvl]
          apply ih (fun x hx => hwf x (List.mem_cons_of_mem _ hx))
          obtain ⟨q, hq, hqk, hqbad⟩ := hbad
          rcases List.mem_cons.1 hq with he | hq2
          · subst he
            rcases hqbad with hh | hh
            · rw [hb] at hh
              exact absurd hh (by simp)
            · exact absurd hh hs
          · exact ⟨q, hq2, hqk, hqbad⟩
    · rw [Bool.not_eq_true] at hk
      simp only [updateLabelsLoop, hk, Bool.not_false, if_true]
      apply ih (fun x hx => hwf x (List.mem_cons_of_mem _ hx))
      obtain ⟨q, hq, hqk, hqbad⟩ := hbad
      rcases List.mem_cons.1 hq with he | hq2
      · subst he
        rw [hk] at hqk
        exact absurd hqk (by simp)
      · exact ⟨q, hq2, hqk, hqbad⟩

theorem deleteLabelsLoop_pass {cur u : Dict}
    (h : ∀ p ∈ u, lookup cur p.1 = some p.2) :
    deleteLabelsLoop cur u = true := by
  induction u with
  | nil => rfl
  | cons p rest ih =>
    obtain ⟨name, value⟩ := p
    have h1 := h _ (List.mem_cons_self _ _)
    have hk : hasKey cur name = true := hasKey_of_lookup h1
    have hbeq : (lookup cur name == some value) = true := by
      rw [beq_iff_eq]
      exact h1
    simp only [deleteLabelsLoop, hk, hbeq, Bool.not_true, Bool.false_eq_true, if_false]
    exact ih (fun x hx => h x (List.mem_cons_of_mem _ hx))

theorem deleteLabelsLoop_fail {cur u : Dict}
    (h : ∃ p ∈ u, lookup cur p.1 ≠ some p.2) :
    deleteLabelsLoop cur u = false := by
  induction u with
  | nil => simp at h
  | cons p rest ih =>
    obtain ⟨name, value⟩ := p
    by_cases hs : lookup cur name = some value
    · have hk : hasKey cur name = true := hasKey_of_lookup hs
      have hbeq : (lookup cur name == some value) = true := by
        rw [beq_iff_eq]
        exact hs
      simp only [deleteLabelsLoop, hk, hbeq, Bool.not_true, Bool.false_eq_true, if_false]
      apply ih
      obtain ⟨q, hq, hqbad⟩ := h
      rcases List.mem_cons.1 hq with he | hq2
      · subst he
        exact absurd hs hqbad
      · exact ⟨q, hq2, hqbad⟩
    · by_cases hk : hasKey cur name = true
      · have hbeq : (lookup cur name == some value) = false := by
          rw [beq_eq_false_iff_ne]
          exact hs
        simp [deleteLabelsLoop, hk, hbeq]
      · rw [Bool.not_eq_true] at hk
        simp [deleteLabelsLoop, hk]

theorem hasKey_updateDict_of_mem {d u : Dict} {k v : String} (h : (k, v) ∈ u) :
    hasKey (updateDict d u) k = true := by
  induction u generalizing d with
  | nil => simp at h
  | cons p rest ih =>
    obtain ⟨k0, v0⟩ := p
    have step : updateDict d ((k0, v0) :: rest) = updateDict (setKey d k0 v0) rest := rfl
    rw [step]
    rcases List.mem_cons.1 h with he | h2
    · injection he with e1 e2
      subst e1
      exact hasKey_updateDict_mono rest (hasKey_of_lookup (lookup_setKey_self d k v0))
    · exact ih h2

/-- Success case of update_with_new_labels, shared shape of several claims. -/
theorem update_with_new_labels_true {tc : TargetConfig} {updates : Dict}
    (hwf : ∀ p ∈ updates, hasKey tc.labels p.1 = true → validLabelName p.1 = true)
    (h1 : updates ≠ [])
    (h2 : ∀ p ∈ updates, hasKey tc.labels p.1 = true →
      (isBlank p.2 = false ∧ lookup tc.labels p.1 ≠ some p.2)) :
    update_with_new_labels tc updates
      = .ok (true, { tc with labels := updateDict tc.labels updates }) := by
  have hemp : updates.isEmpty = false := by
    cases updates with
    | nil => exact absurd rfl h1
    | cons a b => rfl
  have hloop := updateLabelsLoop_pass hwf h2
  simp [update_with_new_labels, hemp, hloop]

/-- Failure case of update_with_new_labels. -/
theorem update_with_new_labels_false {tc : TargetConfig} {updates : Dict}
    (hwf : ∀ p ∈ updates, hasKey tc.labels p.1 = true → validLabelName p.1 = true)
    (hneg : ¬ (updates ≠ [] ∧ ∀ p ∈ updates, hasKey tc.labels p.1 = true →
      (isBlank p.2 = false ∧ lookup tc.labels p.1 ≠ some p.2))) :
    update_with_new_labels tc updates = .ok (false, tc) := by
  by_cases h1 : updates = []
  · subst h1
    rfl
  · have hemp : updates.isEmpty = false := by
      cases updates with
      | nil => exact absurd rfl h1
      | cons a b => rfl
    have h2 : ∃ p ∈ updates, hasKey tc.labels p.1 = true ∧
        (isBlank p.2 = true ∨ lookup tc.labels p.1 = some p.2) := by
      by_contra hc
      push_neg at hc
      apply hneg
      refine ⟨h1, fun p hp hk => ?_⟩
      obtain ⟨hb, hs⟩ := hc p hp hk
      exact ⟨Bool.eq_false_iff.2 hb, hs⟩
    have hloop := updateLabelsLoop_fail hwf h2
    simp [update_with_new_labels, hemp, hloop]

/-- Result shape of update_with_new_labels on success of the call. -/
theorem update_with_new_labels_cases {tc : TargetConfig} {u : Dict} {r : Bool}
    {tc2 : TargetConfig} (h : update_with_new_labels tc u = .ok (r, tc2)) :
    tc2 = tc ∨ tc2 = { tc with labels := updateDict tc.labels u } := by
  unfold update_with_new_labels at h
  by_cases hemp : u.isEmpty = true
  · rw [if_pos hemp] at h
    injection h with h1
    injection h1 with ha hb
    exact Or.inl hb.symm
  · rw [Bool.not_eq_true] at hemp
    rw [hemp] at h
    simp only [Bool.false_eq_true, if_false] at h
    cases hl : updateLabelsLoop tc.labels u with
    | error e => rw [hl] at h; simp at h
    | ok b =>
      rw [hl] at h
      cases b with
      | true =>
        simp only at h
        injection h with h1
        injection h1 with ha hb
        exact Or.inr hb.symm
      | false =>
        simp only at h
        injection h with h1
        injection h1 with ha hb
        exact Or.inl hb.symm

/-- Result shape of delete_from_labels. -/
theorem delete_from_labels_cases {tc : TargetConfig} {u : Dict} {r : Bool}
    {tc2 : TargetConfig} (h : delete_from_labels tc u = (r, tc2)) :
    tc2 = tc ∨ (hasKey u ("job") = false ∧ hasKey u ("env") = false
      ∧ tc2 = { tc with labels := eraseAll tc.labels u }) := by
  unfold delete_from_labels at h
  by_cases hemp : u.isEmpty = true
  · rw [if_pos hemp] at h
    injection h with ha hb
    exact Or.inl hb.symm
  · rw [Bool.not_eq_true] at hemp
    rw [hemp] at h
    simp only [Bool.false_eq_true, if_false] at h
    by_cases hje : (hasKey u ("job") || hasKey u ("env")) = true
    · rw [if_pos hje] at h
      injection h with ha hb
      exact Or.inl hb.symm
    · rw [Bool.not_eq_true] at hje
      rw [hje] at h
      simp only [Bool.false_eq_true, if_false] at h
      rw [Bool.or_eq_false_iff] at hje
      by_cases hloop : deleteLabelsLoop tc.labels u = true
      · rw [if_pos hloop] at h
        injection h with ha hb
        exact Or.inr ⟨hje.1, hje.2, hb.symm⟩
      · rw [Bool.not_eq_true] at hloop
        rw [hloop] at h
        simp only [Bool.false_eq_true, if_false] at h
        injection h with ha hb
        exact Or.inl hb.symm

/-- A loop success of addTargetsLoop means no requested target was present. -/
theorem addTargetsLoop_true_disjoint {cur l : List String}
    (h : addTargetsLoop cur l = .ok true) : ∀ t ∈ l, t ∉ cur := by
  induction l with
  | nil => simp
  | cons t rest ih =>
    by_cases hm : t ∈ cur
    · simp [addTargetsLoop, hm] at h
    · intro x hx
      rcases List.mem_cons.1 hx with he | h2
      · subst he
        exact hm
      · apply ih ?_ x h2
        simp only [addTargetsLoop, if_neg hm] at h
        cases hvt : validate_target t with
        | error e => rw [hvt] at h; simp at h
        | ok b => rw [hvt] at h; exact h

/-- Result shape of update_with_new_targets. -/
theorem update_with_new_targets_cases {tc : TargetConfig} {new : List String} {r : Bool}
    {tc2 : TargetConfig} (h : update_with_new_targets tc new = .ok (r, tc2)) :
    tc2 = tc ∨ (new.Nodup ∧ (∀ t ∈ new, t ∉ tc.targets)
      ∧ tc2 = { tc with targets := tc.targets ++ new }) := by
  unfold update_with_new_targets at h
  by_cases hemp : new.isEmpty = true
  · rw [if_pos hemp] at h
    injection h with h1
    injection h1 with ha hb
    exact Or.inl hb.symm
  · rw [Bool.not_eq_true] at hemp
    rw [hemp] at h
    simp only [Bool.false_eq_true, if_false] at h
    by_cases hnd : new.Nodup
    · rw [if_neg (not_not_intro hnd)] at h
      cases hl : addTargetsLoop tc.targets new with
      | error e => rw [hl] at h; simp at h
      | ok b =>
        rw [hl] at h
        cases b with
        | true =>
          simp only at h
          injection h with h1
          injection h1 with ha hb
          exact Or.inr ⟨hnd, addTargetsLoop_true_disjoint hl, hb.symm⟩
        | false =>
          simp only at h
          injection h with h1
          injection h1 with ha hb
          exact Or.inl hb.symm
    · rw [if_pos hnd] at h
      injection h with h1
      injection h1 with ha hb
      exact Or.inl hb.symm

/-- Result shape of delete_from_targets. -/
theorem delete_from_targets_cases {tc : TargetConfig} {victims : List String} {r : Bool}
    {tc2 : TargetConfig} (h : delete_from_targets tc victims = (r, tc2)) :
    tc2 = tc ∨ tc2 = { tc with
      targets := tc.targets.dedup.filter (fun t => !victims.contains t) } := by
  unfold delete_from_targets at h
  by_cases hemp : victims.isEmpty = true
  · rw [if_pos hemp] at h
    injection h with ha hb
    exact Or.inl hb.symm
  · rw [Bool.not_eq_true] at hemp
    rw [hemp] at h
    simp only [Bool.false_eq_true, if_false] at h
    by_cases hall : ∀ t ∈ victims, t ∈ tc.targets
    · rw [if_neg (not_not_intro hall)] at h
      by_cases hnd : victims.Nodup
      · rw [if_neg (not_not_intro hnd)] at h
        by_cases hlen : victims.length = tc.targets.length
        · rw [if_pos hlen] at h
          injection h with ha hb
          exact Or.inl hb.symm
        · rw [if_neg hlen] at h
          injection h with ha hb
          exact Or.inr hb.symm
      · rw [if_pos hnd] at h
        injection h with ha hb
        exact Or.inl hb.symm
    · rw [if_pos hall] at h
      injection h with ha hb
      exact Or.inl hb.symm

/-! Claim theorems. -/

/-- C4: for every Record (with the grammar-valid label names that construction
guarantees) and every mapping updates, addOrUpdateLabels(updates) returns true
and sets labels to the union of labels and updates (existing keys take the new
values, new keys are added) exactly when updates is non-empty and every
existing-key update is non-blank and differs from the stored value; otherwise
the whole batch is rejected, the operation returns false and the labels are
completely unchanged. -/
theorem C4_add_or_update_labels_spec (tc : TargetConfig) (updates : Dict)
    (hwf : ∀ p ∈ updates, hasKey tc.labels p.1 = true → validLabelName p.1 = true) :
    ((updates ≠ [] ∧ ∀ p ∈ updates, hasKey tc.labels p.1 = true →
        (isBlank p.2 = false ∧ lookup tc.labels p.1 ≠ some p.2)) →
      update_with_new_labels tc updates
        = .ok (true, { tc with labels := updateDict tc.labels updates }))
  ∧ (¬ (updates ≠ [] ∧ ∀ p ∈ updates, hasKey tc.labels p.1 = true →
        (isBlank p.2 = false ∧ lookup tc.labels p.1 ≠ some p.2)) →
      update_with_new_labels tc updates = .ok (false, tc))
  ∧ (keysNodup updates →
      ∀ k, lookup (updateDict tc.labels updates) k =
        match lookup updates k with
        | some v => some v
        | none => lookup tc.labels k) := by
  refine ⟨fun h => update_with_new_labels_true hwf h.1 h.2,
    fun h => update_with_new_labels_false hwf h, fun hnd k => ?_⟩
  exact lookup_updateDict tc.labels updates k hnd

/-- C4 witness: a concrete batch with one changed existing key and one new key
is accepted and merged; the same batch with a no-op value is rejected. -/
theorem C4_add_or_update_labels_spec_witness :
    update_with_new_labels demoRecord [("env", "prod"), ("team", "infra")]
      = .ok (true, { demoRecord with
          labels := updateDict demoRecord.labels [("env", "prod"), ("team", "infra")] })
    ∧ update_with_new_labels demoRecord [("env", "env")] = .ok (false, demoRecord)
    ∧ lookup (updateDict demoRecord.labels [("env", "prod"), ("team", "infra")]) ("env")
        = some ("prod") := by
  refine ⟨(C4_add_or_update_labels_spec demoRecord [("env", "prod"), ("team", "infra")]
      (by decide)).1 (by decide), ?_, ?_⟩
  · exact (C4_add_or_update_labels_spec demoRecord [("env", "env")] (by decide)).2.1
      (by decide)
  · have h := (C4_add_or_update_labels_spec demoRecord [("env", "prod"), ("team", "infra")]
      (by decide)).2.2 (by decide) ("env")
    rw [h]
    rfl

/-- C5: deleteLabels(victims) returns true and removes exactly the keys of
victims from labels exactly when victims is non-empty, neither job nor env is
among its keys, and every key of victims exists in labels with a stored value
equal to the supplied one; in every other case it returns false and the labels
are unchanged. -/
theorem C5_delete_labels_spec (tc : TargetConfig) (victims : Dict) :
    ((victims ≠ [] ∧ hasKey victims ("job") = false ∧ hasKey victims ("env") = false
        ∧ ∀ p ∈ victims, lookup tc.labels p.1 = some p.2) →
      delete_from_labels tc victims
          = (true, { tc with labels := eraseAll tc.labels victims })
        ∧ ∀ k, lookup (eraseAll tc.labels victims) k =
            if hasKey victims k then none else lookup tc.labels k)
  ∧ (¬ (victims ≠ [] ∧ hasKey victims ("job") = false ∧ hasKey victims ("env") = false
        ∧ ∀ p ∈ victims, lookup tc.labels p.1 = some p.2) →
      delete_from_labels tc victims = (false, tc)) := by
  constructor
  · rintro ⟨h1, h2, h3, h4⟩
    have hemp : victims.isEmpty = false := by
      cases victims with
      | nil => exact absurd rfl h1
      | cons a b => rfl
    have hloop := deleteLabelsLoop_pass h4
    refine ⟨?_, fun k => lookup_eraseAll tc.labels victims k⟩
    simp [delete_from_labels, hemp, h2, h3, hloop]
  · intro hneg
    by_cases h1 : victims = []
    · subst h1
      rfl
    · have hemp : victims.isEmpty = false := by
        cases victims with
        | nil => exact absurd rfl h1
        | cons a b => rfl
      by_cases h2 : hasKey victims ("job") = true
      · simp [delete_from_labels, hemp, h2]
      · rw [Bool.not_eq_true] at h2
        by_cases h3 : hasKey victims ("env") = true
        · simp [delete_from_labels, hemp, h2, h3]
        · rw [Bool.not_eq_true] at h3
          have h4 : ∃ p ∈ victims, lookup tc.labels p.1 ≠ some p.2 := by
            by_contra hc
            push_neg at hc
            exact hneg ⟨h1, h2, h3, hc⟩
          have hloop := deleteLabelsLoop_fail h4
          simp [delete_from_labels, hemp, h2, h3, hloop]

/-- C5 witness: deleting a concrete extra label with the matching value
succeeds and removes exactly that key; a value mismatch and a protected key
are both rejected. -/
theorem C5_delete_labels_spec_witness :
    delete_from_labels { demoRecord with labels := demoRecord.labels ++ [("team", "infra")] }
        [("team", "infra")]
      = (true, { demoRecord with
          labels := eraseAll (demoRecord.labels ++ [("team", "infra")]) [("team", "infra")] })
    ∧ lookup (eraseAll (demoRecord.labels ++ [("team", "infra")]) [("team", "infra")])
        ("team") = none
    ∧ delete_from_labels demoRecord [("job", "app")] = (false, demoRecord) := by
  refine ⟨((C5_delete_labels_spec _ _).1 (by decide)).1, ?_, ?_⟩
  · have h := ((C5_delete_labels_spec
      { demoRecord with labels := demoRecord.labels ++ [("team", "infra")] }
      [("team", "infra")]).1 (by decide)).2 ("team")
    rw [h]
    rfl
  · exact (C5_delete_labels_spec demoRecord [("job", "app")]).2 (by decide)

/-- C10: in addOrUpdateLabels, label validation applies only to keys already
present: a batch that introduces a new key whose name violates the label-name
grammar (with every existing-key update non-blank and changed) raises no
error, returns true, and stores the invalid name in the labels. -/
theorem C10_new_label_name_not_validated (tc : TargetConfig) (updates : Dict)
    (k v : String)
    (hwf : ∀ p ∈ updates, hasKey tc.labels p.1 = true → validLabelName p.1 = true)
    (h1 : updates ≠ [])
    (h2 : ∀ p ∈ updates, hasKey tc.labels p.1 = true →
      (isBlank p.2 = false ∧ lookup tc.labels p.1 ≠ some p.2))
    (hmem : (k, v) ∈ updates) (hnew : hasKey tc.labels k = false)
    (hbad : validLabelName k = false) :
    update_with_new_labels tc updates
      = .ok (true, { tc with labels := updateDict tc.labels updates })
    ∧ hasKey (updateDict tc.labels updates) k = true := by
  exact ⟨update_with_new_labels_true hwf h1 h2, hasKey_updateDict_of_mem hmem⟩

/-- C10 witness: the batch consisting of the single new pair with the
grammar-invalid name bad-name is accepted and the name is stored. -/
theorem C10_new_label_name_not_validated_witness :
    update_with_new_labels demoRecord [("bad-name", "v")]
      = .ok (true, { demoRecord with
          labels := updateDict demoRecord.labels [("bad-name", "v")] })
    ∧ hasKey (updateDict demoRecord.labels [("bad-name", "v")]) ("bad-name") = true :=
  C10_new_label_name_not_validated demoRecord [("bad-name", "v")] ("bad-name") ("v")
    (by decide) (by decide) (by decide) (by decide) (by decide) (by decide)

/-- C6: for every Record with duplicate-free targets (the data-model
invariant), deleteTargets(victims) returns true and sets targets to the set
difference exactly when victims is non-empty, has no internal duplicates,
every victim is present, and at least one target would remain; otherwise it
returns false and the targets are unchanged; a true result never leaves the
targets empty. -/
theorem C6_delete_targets_spec (tc : TargetConfig) (victims : List String)
    (hnd : tc.targets.Nodup) :
    ((victims ≠ [] ∧ victims.Nodup ∧ (∀ t ∈ victims, t ∈ tc.targets)
        ∧ (∃ t ∈ tc.targets, t ∉ victims)) →
      (delete_from_targets tc victims).1 = true
        ∧ ∀ t, t ∈ (delete_from_targets tc victims).2.targets ↔
            (t ∈ tc.targets ∧ t ∉ victims))
  ∧ (¬ (victims ≠ [] ∧ victims.Nodup ∧ (∀ t ∈ victims, t ∈ tc.targets)
        ∧ (∃ t ∈ tc.targets, t ∉ victims)) →
      delete_from_targets tc victims = (false, tc))
  ∧ ((delete_from_targets tc victims).1 = true →
      (delete_from_targets tc victims).2.targets ≠ []) := by
  by_cases hC : victims ≠ [] ∧ victims.Nodup ∧ (∀ t ∈ victims, t ∈ tc.targets)
      ∧ (∃ t ∈ tc.targets, t ∉ victims)
  · obtain ⟨h1, h2, h3, h4⟩ := hC
    have hemp : ¬ (victims.isEmpty = true) := by
      cases victims with
      | nil => exact absurd rfl h1
      | cons a b => simp
    have hlen : ¬ (victims.length = tc.targets.length) := by
      intro hl
      have hperm := (List.subperm_of_subset h2 (fun t ht => h3 t ht)).perm_of_length_le
        (le_of_eq hl.symm)
      obtain ⟨t, ht, htn⟩ := h4
      exact htn (hperm.mem_iff.2 ht)
    have hres : delete_from_targets tc victims = (true,
        { tc with targets := tc.targets.dedup.filter (fun t => !victims.contains t) }) := by
      unfold delete_from_targets
      rw [if_neg hemp, if_neg (not_not_intro h3), if_neg (not_not_intro h2), if_neg hlen]
    have hmem : ∀ t, t ∈ (delete_from_targets tc victims).2.targets ↔
        (t ∈ tc.targets ∧ t ∉ victims) := by
      intro t
      rw [hres]
      simp [List.mem_filter, List.mem_dedup]
    refine ⟨fun _ => ⟨by rw [hres], hmem⟩,
      fun hn => absurd ⟨h1, h2, h3, h4⟩ hn, fun _ hnil => ?_⟩
    obtain ⟨t, ht, htn⟩ := h4
    have hmm : t ∈ (delete_from_targets tc victims).2.targets := (hmem t).2 ⟨ht, htn⟩
    rw [hnil] at hmm
    simp at hmm
  · have hres : delete_from_targets tc victims = (false, tc) := by
      by_cases h1 : victims = []
      · subst h1
        rfl
      · have hemp : ¬ (victims.isEmpty = true) := by
          cases victims with
          | nil => exact absurd rfl h1
          | cons a b => simp
        by_cases h3 : ∀ t ∈ victims, t ∈ tc.targets
        · by_cases h2 : victims.Nodup
          · have h4 : ∀ t ∈ tc.targets, t ∈ victims := by
              by_contra hc
              push_neg at hc
              exact hC ⟨h1, h2, h3, hc⟩
            have hsub1 : victims.Subperm tc.targets :=
              List.subperm_of_subset h2 (fun t ht => h3 t ht)
            have hsub2 : tc.targets.Subperm victims :=
              List.subperm_of_subset hnd (fun t ht => h4 t ht)
            have hlen : victims.length = tc.targets.length :=
              (hsub1.antisymm hsub2).length_eq
            unfold delete_from_targets
            rw [if_neg hemp, if_neg (not_not_intro h3), if_neg (not_not_intro h2),
              if_pos hlen]
          · unfold delete_from_targets
            rw [if_neg hemp, if_neg (not_not_intro h3), if_pos h2]
        · unfold delete_from_targets
          rw [if_neg hemp, if_pos h3]
    refine ⟨fun hc => absurd hc hC, fun _ => hres, fun ht => ?_⟩
    rw [hres] at ht
    simp at ht

/-- C6 witness: on a concrete two-target record, deleting one present target
succeeds and leaves the other, while deleting both is refused. -/
theorem C6_delete_targets_spec_witness :
    (delete_from_targets { demoRecord with targets := ["a", "b"] } ["b"]).1 = true
    ∧ (("a" : String) ∈
        (delete_from_targets { demoRecord with targets := ["a", "b"] } ["b"]).2.targets
      ∧ ¬ ("b" : String) ∈
        (delete_from_targets { demoRecord with targets := ["a", "b"] } ["b"]).2.targets)
    ∧ delete_from_targets { demoRecord with targets := ["a", "b"] } ["a", "b"]
        = (false, { demoRecord with targets := ["a", "b"] }) := by
  have h := C6_delete_targets_spec { demoRecord with targets := ["a", "b"] } ["b"] (by decide)
  have hp := h.1 (by decide)
  refine ⟨hp.1, ⟨(hp.2 ("a")).2 (by decide), fun hb => ?_⟩, ?_⟩
  · exact ((hp.2 ("b")).1 hb).2 (by decide)
  · exact (C6_delete_targets_spec { demoRecord with targets := ["a", "b"] } ["a", "b"]
      (by decide)).2.1 (by decide)

/-- C7: every construction leaves the protected keys job and env present, with
defaults application and environment when the caller omitted them and the
caller values kept when supplied; and no label or target operation of the
system, the PUT label-replace path included, removes the two keys. -/
theorem C7_protected_labels :
    (∀ app env ts ls tc, mkTargetConfig app env ts ls = .ok tc →
      hasKey tc.labels ("job") = true ∧ hasKey tc.labels ("env") = true
      ∧ (hasKey ls ("job") = false → lookup tc.labels ("job") = some app)
      ∧ (hasKey ls ("env") = false → lookup tc.labels ("env") = some env)
      ∧ (∀ v, lookup ls ("job") = some v → lookup tc.labels ("job") = some v)
      ∧ (∀ v, lookup ls ("env") = some v → lookup tc.labels ("env") = some v))
  ∧ (∀ tc u r tc2, update_with_new_labels tc u = .ok (r, tc2) →
      hasKey tc.labels ("job") = true → hasKey tc.labels ("env") = true →
      hasKey tc2.labels ("job") = true ∧ hasKey tc2.labels ("env") = true)
  ∧ (∀ tc u r tc2, delete_from_labels tc u = (r, tc2) →
      hasKey tc.labels ("job") = true → hasKey tc.labels ("env") = true →
      hasKey tc2.labels ("job") = true ∧ hasKey tc2.labels ("env") = true)
  ∧ (∀ tc u tc2, replace_labels_for_put tc u = .ok tc2 →
      hasKey tc2.labels ("job") = true ∧ hasKey tc2.labels ("env") = true)
  ∧ (∀ tc u r tc2, update_with_new_targets tc u = .ok (r, tc2) → tc2.labels = tc.labels)
  ∧ (∀ tc u r tc2, delete_from_targets tc u = (r, tc2) → tc2.labels = tc.labels)
  ∧ (∀ tc u tc2, replaceTargetsForPut tc u = .ok tc2 → tc2.labels = tc.labels) := by
  refine ⟨?_, ?_, ?_, ?_, ?_, ?_, ?_⟩
  · intro app env ts ls tc h
    have he := mkTargetConfig_ok h
    subst he
    exact ⟨postLabels_hasKey_job app env ls, postLabels_hasKey_env app env ls,
      fun hj => postLabels_lookup_job_default app env hj,
      fun hv => postLabels_lookup_env_default app env hv,
      fun v hv => postLabels_lookup_job_keep app env hv,
      fun v hv => postLabels_lookup_env_keep app env hv⟩
  · intro tc u r tc2 h hj hv
    rcases update_with_new_labels_cases h with he | he
    · subst he
      exact ⟨hj, hv⟩
    · subst he
      exact ⟨hasKey_updateDict_mono u hj, hasKey_updateDict_mono u hv⟩
  · intro tc u r tc2 h hj hv
    rcases delete_from_labels_cases h with he | ⟨hju, hvu, he⟩
    · subst he
      exact ⟨hj, hv⟩
    · subst he
      constructor
      · show (lookup (eraseAll tc.labels u) ("job")).isSome = true
        rw [lookup_eraseAll, hju]
        simp only [Bool.false_eq_true, if_false]
        exact hj
      · show (lookup (eraseAll tc.labels u) ("env")).isSome = true
        rw [lookup_eraseAll, hvu]
        simp only [Bool.false_eq_true, if_false]
        exact hv
  · intro tc u tc2 h
    unfold replace_labels_for_put at h
    split at h
    · simp at h
    · rename_i l1 hm1
      have hj1 : hasKey l1 ("job") = true := by
        by_cases hku : hasKey u ("job") = true
        · rw [if_pos hku] at hm1
          injection hm1 with he
          subst he
          exact hku
        · rw [if_neg hku] at hm1
          cases hlj : lookup tc.labels ("job") with
          | none => rw [hlj] at hm1; simp at hm1
          | some v =>
            rw [hlj] at hm1
            injection hm1 with he
            subst he
            exact hasKey_append_right u ("job") v
      split at h
      · simp at h
      · rename_i l2 hm2
        have hkeys : hasKey l2 ("job") = true ∧ hasKey l2 ("env") = true := by
          by_cases hke : hasKey l1 ("env") = true
          · rw [if_pos hke] at hm2
            injection hm2 with he
            subst he
            exact ⟨hj1, hke⟩
          · rw [if_neg hke] at hm2
            cases hle : lookup tc.labels ("env") with
            | none => rw [hle] at hm2; simp at hm2
            | some v =>
              rw [hle] at hm2
              injection hm2 with he
              subst he
              exact ⟨hasKey_append_mono _ hj1, hasKey_append_right l1 ("env") v⟩
        split at h
        · simp at h
        · injection h with he
          subst he
          exact hkeys
  · intro tc u r tc2 h
    rcases update_with_new_targets_cases h with he | ⟨_, _, he⟩ <;> subst he <;> rfl
  · intro tc u r tc2 h
    rcases delete_from_targets_cases h with he | he <;> subst he <;> rfl
  · intro tc u tc2 h
    unfold replaceTargetsForPut at h
    cases hv : validateTargetsList u with
    | error e => rw [hv] at h; simp at h
    | ok b =>
      rw [hv] at h
      injection h with he
      subst he
      rfl

/-- C7 witness: concrete constructions with omitted, partially supplied and
overridden protected labels, and one label-replace call, all keep job and env. -/
theorem C7_protected_labels_witness :
    (hasKey demoRecord.labels ("job") = true ∧ hasKey demoRecord.labels ("env") = true)
    ∧ lookup demoRecord.labels ("job") = some ("app")
    ∧ (∀ tc2, replace_labels_for_put demoRecord [("team", "infra")] = .ok tc2 →
        hasKey tc2.labels ("job") = true ∧ hasKey tc2.labels ("env") = true) := by
  have h1 := C7_protected_labels.1 ("app") ("env") ["a"] [] demoRecord (by rfl)
  refine ⟨⟨h1.1, h1.2.1⟩, h1.2.2.1 (by rfl), fun tc2 h => ?_⟩
  exact C7_protected_labels.2.2.2.1 demoRecord [("team", "infra")] tc2 h

/-- C8: write(record, directory) fails with a SchemaError when the serialized
record violates the file schema (for example empty targets or fewer than two
labels) and with a NotFoundError when the schema holds but the directory does
not exist; in both failure cases the error is raised before any write, so the
directory contents are unchanged. -/
theorem C8_write_failure_spec (tc : TargetConfig) (dirExists : Bool) (fs : FileSys) :
    (valid_prometheus_json tc = false →
      write_to_file tc dirExists fs = (fs, some WriteError.schemaError))
  ∧ (valid_prometheus_json tc = true → dirExists = false →
      write_to_file tc dirExists fs = (fs, some WriteError.notFound))
  ∧ (tc.targets = [] → valid_prometheus_json tc = false)
  ∧ (dictSize tc.labels < 2 → valid_prometheus_json tc = false) := by
  refine ⟨?_, ?_, ?_, ?_⟩
  · intro h
    simp [write_to_file, h]
  · intro h hd
    simp [write_to_file, h, hd]
  · intro h
    simp [valid_prometheus_json, h]
  · intro h
    have hd : decide (2 ≤ dictSize tc.labels) = false := by
      rw [decide_eq_false_iff_not]
      omega
    simp [valid_prometheus_json, hd]

/-- C8 witness: the record with its targets emptied is rejected with a schema
error and the record with a missing directory with a not-found error, both
leaving a concrete directory untouched. -/
theorem C8_write_failure_spec_witness :
    write_to_file { demoRecord with targets := [] } true
        [(filename demoRecord, serialize demoRecord)]
      = ([(filename demoRecord, serialize demoRecord)], some WriteError.schemaError)
    ∧ write_to_file demoRecord false [(filename demoRecord, serialize demoRecord)]
      = ([(filename demoRecord, serialize demoRecord)], some WriteError.notFound)
    ∧ valid_prometheus_json { demoRecord with targets := [] } = false := by
  refine ⟨(C8_write_failure_spec { demoRecord with targets := [] } true
      [(filename demoRecord, serialize demoRecord)]).1 (by rfl),
    (C8_write_failure_spec demoRecord false
      [(filename demoRecord, serialize demoRecord)]).2.1 (by rfl) rfl,
    (C8_write_failure_spec { demoRecord with targets := [] } true []).2.2.1 rfl⟩

/-- Outcome of the inner host check of validate_target: success together with
one accepting validator, or the raised error with all three refusing. -/
theorem valid_host_cases (host : String) :
    (valid_host host = .ok true ∧ (valid_hostname host = true
        ∨ validators_domain host = true ∨ validators_ipv4 host = true))
    ∨ (valid_host host = .error ("Invalid host " ++ host)
        ∧ valid_hostname host = false ∧ validators_domain host = false
        ∧ validators_ipv4 host = false) := by
  by_cases h1 : valid_hostname host = true
  · have hres : valid_host host = .ok true := by
      unfold valid_host
      rw [if_pos h1]
    exact Or.inl ⟨hres, Or.inl h1⟩
  · rw [Bool.not_eq_true] at h1
    by_cases h2 : validators_domain host = true
    · have hres : valid_host host = .ok true := by
        unfold valid_host
        rw [h1]
        simp only [Bool.false_eq_true, if_false]
        rw [if_pos h2]
      exact Or.inl ⟨hres, Or.inr (Or.inl h2)⟩
    · rw [Bool.not_eq_true] at h2
      by_cases h3 : validators_ipv4 host = true
      · have hres : valid_host host = .ok true := by
          unfold valid_host
          rw [h1, h2]
          simp only [Bool.false_eq_true, if_false]
          rw [if_pos h3]
        exact Or.inl ⟨hres, Or.inr (Or.inr h3)⟩
      · rw [Bool.not_eq_true] at h3
        have hres : valid_host host = .error ("Invalid host " ++ host) := by
          unfold valid_host
          rw [h1, h2, h3]
          simp only [Bool.false_eq_true, if_false]
        exact Or.inr ⟨hres, h1, h2, h3⟩

/-- Outcome of the inner port check of validate_target. -/
theorem valid_port_cases (port : String) :
    (valid_port port = .ok true ∧ allDigits port = true
        ∧ 1 ≤ digitsToNat port ∧ digitsToNat port ≤ 65535)
    ∨ ((valid_port port).isOk = false
        ∧ ¬ (allDigits port = true ∧ 1 ≤ digitsToNat port ∧ digitsToNat port ≤ 65535)) := by
  by_cases h1 : allDigits port = true
  · by_cases h2 : (decide (1 ≤ digitsToNat port) && decide (digitsToNat port < 65536)) = true
    · have hres : valid_port port = .ok true := by
        unfold valid_port
        rw [h1, h2]
        simp
      rw [Bool.and_eq_true, decide_eq_true_iff, decide_eq_true_iff] at h2
      exact Or.inl ⟨hres, h1, h2.1, by omega⟩
    · rw [Bool.not_eq_true] at h2
      have hres : (valid_port port).isOk = false := by
        unfold valid_port
        rw [h1, h2]
        simp [Except.isOk, Except.toBool]
      refine Or.inr ⟨hres, ?_⟩
      rintro ⟨ha, hl, hu⟩
      rw [decide_eq_true hl, decide_eq_true (show digitsToNat port < 65536 by omega)] at h2
      simp at h2
  · rw [Bool.not_eq_true] at h1
    have hres : (valid_port port).isOk = false := by
      unfold valid_port
      rw [h1]
      simp [Except.isOk, Except.toBool]
    refine Or.inr ⟨hres, ?_⟩
    rintro ⟨ha, _⟩
    rw [h1] at ha
    simp at ha

/-- C9: validateTarget(s) succeeds exactly when, splitting s on the first
colon, the host part is non-blank and passes the hostname grammar, the domain
validator or the IPv4 validator, and the port part, when present, is all-digit
with a value between 1 and 65535 (an absent port is treated as 80); any other
string raises an error and the call never returns false. -/
theorem C9_validate_target_spec (s : String) :
    ((validate_target s).isOk = true ↔
      (isBlank (splitFirstColon s).1 = false
        ∧ (valid_hostname (splitFirstColon s).1 = true
            ∨ validators_domain (splitFirstColon s).1 = true
            ∨ validators_ipv4 (splitFirstColon s).1 = true)
        ∧ (match (splitFirstColon s).2 with
           | none => True
           | some p => allDigits p = true ∧ 1 ≤ digitsToNat p ∧ digitsToNat p ≤ 65535)))
  ∧ (∀ b, validate_target s = .ok b → b = true) := by
  have hmain : validate_target s =
      (if isBlank (splitFirstColon s).1 then .error ("Empty hostname")
       else match valid_host (splitFirstColon s).1 with
         | .error e => .error e
         | .ok _ => valid_port (match (splitFirstColon s).2 with
             | none => "80"
             | some p => p)) := rfl
  by_cases hb : isBlank (splitFirstColon s).1 = true
  · rw [hmain, if_pos hb]
    constructor
    · apply iff_of_false
      · simp [Except.isOk, Except.toBool]
      · rintro ⟨h1, _⟩
        rw [hb] at h1
        simp at h1
    · intro b hbb
      simp at hbb
  · have hbf : isBlank (splitFirstColon s).1 = false := Bool.eq_false_iff.2 hb
    rw [hmain, if_neg hb]
    rcases valid_host_cases (splitFirstColon s).1 with ⟨hok, hdisj⟩ | ⟨herr, h1, h2, h3⟩
    · rw [hok]
      cases hsp : (splitFirstColon s).2 with
      | none =>
        have hp80 : valid_port ("80") = .ok true := rfl
        constructor
        · apply iff_of_true
          · show (valid_port ("80")).isOk = true
            rw [hp80]
            rfl
          · exact ⟨hbf, hdisj, trivial⟩
        · intro b hbb
          have hbb2 : valid_port ("80") = .ok b := hbb
          rw [hp80] at hbb2
          injection hbb2 with he
          exact he.symm
      | some p =>
        rcases valid_port_cases p with ⟨pok, pd1, pd2, pd3⟩ | ⟨pbad, pnd⟩
        · constructor
          · apply iff_of_true
            · show (valid_port p).isOk = true
              rw [pok]
              rfl
            · exact ⟨hbf, hdisj, pd1, pd2, pd3⟩
          · intro b hbb
            have hbb2 : valid_port p = .ok b := hbb
            rw [pok] at hbb2
            injection hbb2 with he
            exact he.symm
        · constructor
          · apply iff_of_false
            · show ¬ ((valid_port p).isOk = true)
              rw [pbad]
              simp
            · rintro ⟨_, _, hcond⟩
              exact pnd hcond
          · intro b hbb
            have hbb2 : valid_port p = .ok b := hbb
            rw [hbb2] at pbad
            simp [Except.isOk, Except.toBool] at pbad
    · rw [herr]
      constructor
      · apply iff_of_false
        · simp [Except.isOk, Except.toBool]
        · rintro ⟨_, hd, _⟩
          rcases hd with hh | hh | hh
          · rw [h1] at hh
            simp at hh
          · rw [h2] at hh
            simp at hh
          · rw [h3] at hh
            simp at hh
      · intro b hbb
        simp at hbb

/-- C9 witness: a concrete host with port is accepted through the theorem and
a concrete malformed host is rejected. -/
theorem C9_validate_target_spec_witness :
    (validate_target ("localhost:9090")).isOk = true
    ∧ (validate_target ("!!")).isOk ≠ true := by
  constructor
  · apply (C9_validate_target_spec ("localhost:9090")).1.mpr
    refine ⟨by decide, Or.inl (by decide), ?_⟩
    exact (⟨by decide, by decide, by decide⟩ :
      allDigitsL ("9090").data = true ∧ 1 ≤ digitsToNatL ("9090").data
        ∧ digitsToNatL ("9090").data ≤ 65535)
  · intro hc
    have h := ((C9_validate_target_spec ("!!")).1.mp hc).2.1
    rcases h with hh | hh | hh <;> revert hh <;> decide

/-- C1 as stated fails on the code: a valid record (non-empty targets, labels
containing job and env) whose job label overrides the application does not
round trip, because deserialization reads the application back from the job
label; at the concrete record below the deserialized record differs from the
original under record equality. -/
theorem C1_roundtrip_counterexample :
    mkTargetConfig ("app") ("env") ["h"] [("job", "other"), ("env", "env")]
      = .ok demoOverride
    ∧ (from_json_doc (serialize demoOverride)).toOption.map
        (fun tc2 => targetConfigEq demoOverride tc2) = some false :=
  ⟨rfl, rfl⟩

/-- C1 (amended): deserializing the serialized form of a valid record yields
the record itself, and in particular a record equal to it under record
equality, provided additionally that the job label stores the application and
the env label stores the environment (as every record whose protected labels
were not overridden satisfies). -/
theorem C1_roundtrip_amended (tc : TargetConfig)
    (hnd : keysNodup tc.labels)
    (hjob : lookup tc.labels ("job") = some tc.application)
    (henv : lookup tc.labels ("env") = some tc.environment)
    (htv : ∀ t ∈ tc.targets, (validate_target t).isOk = true)
    (hlv : ∀ p ∈ tc.labels, validLabelName p.1 = true)
    (hne : tc.targets ≠ []) :
    from_json_doc (serialize tc) = .ok tc ∧ targetConfigEq tc tc = true := by
  constructor
  · have hser : from_json_doc (serialize tc)
        = mkTargetConfig tc.application tc.environment tc.targets tc.labels := by
      unfold serialize from_json_doc
      simp only [hjob, henv]
    rw [hser]
    unfold mkTargetConfig
    simp only [validateTargetsList_ok htv, validateLabelsDict_ok hlv]
    have hpl : postLabels tc.application tc.environment tc.labels = tc.labels :=
      postLabels_id _ _ (hasKey_of_lookup hjob) (hasKey_of_lookup henv)
    show Except.ok (post_init tc) = Except.ok tc
    unfold post_init
    rw [hpl]
  · unfold targetConfigEq
    rw [beq_self_eq_true, beq_self_eq_true, dictBeq_refl hnd,
      show tc.targets.isPerm tc.targets = true from List.isPerm_iff.2 (List.Perm.refl _)]
    rfl

/-- C1 witness: the demo record, whose protected labels hold the default
values, round trips to itself. -/
theorem C1_roundtrip_amended_witness :
    from_json_doc (serialize demoRecord) = .ok demoRecord
    ∧ targetConfigEq demoRecord demoRecord = true :=
  C1_roundtrip_amended demoRecord (by decide) rfl rfl (by decide) (by decide) (by decide)

/-- C2 as stated fails on the code: the PUT replace path validates only the
syntax of each requested target and performs no duplicate check, so it stores
a duplicated targets list on a record built by public construction. -/
theorem C2_nodup_counterexample :
    mkTargetConfig ("app") ("env") ["a"] [] = .ok demoRecord
    ∧ (replaceTargetsForPut demoRecord ["h", "h"]).toOption.map (fun tc2 => tc2.targets)
      = some ["h", "h"]
    ∧ ¬ (["h", "h"] : List String).Nodup :=
  ⟨rfl, rfl, by decide⟩

/-- C2 (amended): construction stores the requested targets verbatim, and
addTargets and deleteTargets preserve distinctness of the stored targets, but
the replaceTargets path of PUT yields a duplicate-free list exactly when the
request itself is duplicate-free — the invariant holds only under that
precondition on replace requests. -/
theorem C2_nodup_amended :
    (∀ app env ts ls tc, mkTargetConfig app env ts ls = .ok tc →
      (tc.targets.Nodup ↔ ts.Nodup))
  ∧ (∀ tc new r tc2, update_with_new_targets tc new = .ok (r, tc2) →
      tc.targets.Nodup → tc2.targets.Nodup)
  ∧ (∀ tc victims r tc2, delete_from_targets tc victims = (r, tc2) →
      tc.targets.Nodup → tc2.targets.Nodup)
  ∧ (∀ tc new tc2, replaceTargetsForPut tc new = .ok tc2 →
      (tc2.targets.Nodup ↔ new.Nodup)) := by
  refine ⟨?_, ?_, ?_, ?_⟩
  · intro app env ts ls tc h
    rw [mkTargetConfig_ok h]
    exact Iff.rfl
  · intro tc new r tc2 h hnd
    rcases update_with_new_targets_cases h with he | ⟨hn, hd, he⟩
    · subst he
      exact hnd
    · subst he
      exact List.Nodup.append hnd hn (fun a hc hn2 => hd a hn2 hc)
  · intro tc victims r tc2 h hnd
    rcases delete_from_targets_cases h with he | he
    · subst he
      exact hnd
    · subst he
      exact List.Nodup.filter _ (List.nodup_dedup _)
  · intro tc new tc2 h
    unfold replaceTargetsForPut at h
    cases hv : validateTargetsList new with
    | error e => rw [hv] at h; simp at h
    | ok b =>
      rw [hv] at h
      injection h with he
      subst he
      exact Iff.rfl

/-- C2 witness: the amended statement applied at the demo record and at a
duplicated replace request. -/
theorem C2_nodup_amended_witness :
    (demoRecord.targets.Nodup ↔ (["a"] : List String).Nodup)
    ∧ ∀ tc2, replaceTargetsForPut demoRecord ["h", "h"] = .ok tc2 →
        (tc2.targets.Nodup ↔ (["h", "h"] : List String).Nodup) := by
  refine ⟨C2_nodup_amended.1 ("app") ("env") ["a"] [] demoRecord rfl, fun tc2 h => ?_⟩
  exact C2_nodup_amended.2.2.2 demoRecord ["h", "h"] tc2 h

/-- C3 as stated fails on the code: a batch holding the already present target
a before the malformed target does not raise, because the overlap check runs
before validation; the call returns false with the record unchanged. -/
theorem C3_add_targets_counterexample :
    update_with_new_targets demoRecord ["a", "!!"] = .ok (false, demoRecord)
    ∧ (validate_target ("!!")).isOk = false
    ∧ ("a" : String) ∈ demoRecord.targets :=
  ⟨rfl, rfl, by decide⟩

/-- C3 (amended): for batches of syntactically valid targets, addTargets
appends the whole batch and returns true exactly when the batch is non-empty,
internally duplicate-free and disjoint from the current targets, returning
false with targets unchanged otherwise; a malformed element raises an error
only when it is reached — when the batch is non-empty and duplicate-free and
every earlier element is valid and not already present — and otherwise the
batch is rejected with false before the malformed element is examined. -/
theorem C3_add_targets_amended :
    (∀ (tc : TargetConfig) (new : List String),
      (∀ t ∈ new, (validate_target t).isOk = true) →
      ((new ≠ [] ∧ new.Nodup ∧ ∀ t ∈ new, t ∉ tc.targets) →
        update_with_new_targets tc new
          = .ok (true, { tc with targets := tc.targets ++ new }))
      ∧ (¬ (new ≠ [] ∧ new.Nodup ∧ ∀ t ∈ new, t ∉ tc.targets) →
        update_with_new_targets tc new = .ok (false, tc)))
  ∧ (∀ (tc : TargetConfig) (pre post : List String) (t : String),
      (∀ p ∈ pre, (validate_target p).isOk = true ∧ p ∉ tc.targets) →
      t ∉ tc.targets → (validate_target t).isOk = false →
      (pre ++ t :: post).Nodup →
      (update_with_new_targets tc (pre ++ t :: post)).isOk = false) := by
  constructor
  · intro tc new hv
    constructor
    · rintro ⟨h1, h2, h3⟩
      have hemp : new.isEmpty = false := by
        cases new with
        | nil => exact absurd rfl h1
        | cons a b => rfl
      have hloop := addTargetsLoop_disjoint hv h3
      unfold update_with_new_targets
      rw [hemp]
      simp only [Bool.false_eq_true, if_false, if_neg (not_not_intro h2), hloop]
    · intro hneg
      by_cases h1 : new = []
      · subst h1
        rfl
      · have hemp : new.isEmpty = false := by
          cases new with
          | nil => exact absurd rfl h1
          | cons a b => rfl
        by_cases h2 : new.Nodup
        · have h3 : ∃ t ∈ new, t ∈ tc.targets := by
            by_contra hc
            push_neg at hc
            exact hneg ⟨h1, h2, hc⟩
          have hloop := addTargetsLoop_overlap hv h3
          unfold update_with_new_targets
          rw [hemp]
          simp only [Bool.false_eq_true, if_false, if_neg (not_not_intro h2), hloop]
        · unfold update_with_new_targets
          rw [hemp]
          simp only [Bool.false_eq_true, if_false, if_pos h2]
  · intro tc pre post t hpre hm hbad hnd
    have hemp : (pre ++ t :: post).isEmpty = false := by
      cases pre with
      | nil => rfl
      | cons a b => rfl
    have hloop := addTargetsLoop_error pre post hpre hm hbad
    unfold update_with_new_targets
    rw [hemp]
    simp only [Bool.false_eq_true, if_false, if_neg (not_not_intro hnd)]
    cases hl : addTargetsLoop tc.targets (pre ++ t :: post) with
    | error e => rfl
    | ok b =>
      rw [hl] at hloop
      cases b with
      | true => simp [Except.isOk, Except.toBool] at hloop
      | false => simp [Except.isOk, Except.toBool] at hloop

/-- C3 witness: a fresh valid batch is appended, an overlapping valid batch is
refused without error, and a malformed batch raises. -/
theorem C3_add_targets_amended_witness :
    update_with_new_targets demoRecord ["b", "c"]
      = .ok (true, { demoRecord with targets := demoRecord.targets ++ ["b", "c"] })
    ∧ update_with_new_targets demoRecord ["a", "b"] = .ok (false, demoRecord)
    ∧ (update_with_new_targets demoRecord ["!!"]).isOk = false := by
  refine ⟨(C3_add_targets_amended.1 demoRecord ["b", "c"] (by decide)).1 (by decide),
    (C3_add_targets_amended.1 demoRecord ["a", "b"] (by decide)).2 (by decide), ?_⟩
  exact C3_add_targets_amended.2 demoRecord [] [] ("!!")
    (by decide) (by decide) (by decide) (by decide)

end TargetEye
